import Mathlib

/-!
# Verification of the tech-news bot's text pipeline

A shallow embedding of the string-processing core of the `twitter_bot`
repository (`utils.py`, `tweet_generator.py`, `x_client.py`, `bot.py`).
Python strings are modelled as `List Char` (one element per code point,
matching Python's `len`), Python's `int` as `Int` where subtraction can go
negative, and slices/`rfind`/`rstrip` with their exact Python semantics
(negative slice indices count from the end, `rfind` returns `-1` on a miss).
Regular-expression substitutions are modelled as recursive scanners that
mirror the engine's leftmost, non-overlapping behaviour on the concrete
patterns used by the source; `\s` is modelled by the ASCII whitespace
characters, `[A-Z]`/`\w` by their ASCII classes, as in the source's patterns.
-/

/-! ## Character classes and Python string primitives -/

/-- ASCII whitespace, the characters Python's `\s` and `str.strip` treat as
space on the texts in question. -/
def isSpc (c : Char) : Bool :=
  c = ' ' || c = '\n' || c = '\t' || c = '\r' || c = '\x0b' || c = '\x0c'

/-- Sentence-ending punctuation `[.!?]` from `add_line_breaks`. -/
def isPunc (c : Char) : Bool := c = '.' || c = '!' || c = '?'

/-- The ASCII class `[A-Z]`. -/
def isCapital (c : Char) : Bool := 'A' ≤ c && c ≤ 'Z'

/-- The ASCII class `[a-z]`. -/
def isLowerAZ (c : Char) : Bool := 'a' ≤ c && c ≤ 'z'

/-- The ASCII word class `\w`. -/
def isWordChar (c : Char) : Bool :=
  ('a' ≤ c && c ≤ 'z') || ('A' ≤ c && c ≤ 'Z') || ('0' ≤ c && c ≤ '9') || c = '_'

/-- A quote character, the class `["']` of `clean_tweet`. -/
def isQuoteChar (c : Char) : Bool := c = '"' || c = '\''

/-- Python `str.lower` on the ASCII letters (the only case-folding the
source's checks rely on). -/
def lowerChar (c : Char) : Char :=
  if 'A' ≤ c && c ≤ 'Z' then Char.ofNat (c.toNat + 32) else c

/-- `text.lower()`. -/
def pyLower (l : List Char) : List Char := l.map lowerChar

/-- `text.lstrip()`. -/
def pyLStrip (l : List Char) : List Char := l.dropWhile isSpc

/-- `text.rstrip()`. -/
def pyRStrip (l : List Char) : List Char := (l.reverse.dropWhile isSpc).reverse

/-- `text.strip()`. -/
def pyStrip (l : List Char) : List Char := pyLStrip (pyRStrip l)

/-- Python's `text[:stop]` for an `int` stop: a negative stop counts from the
end of the string, clamping at `0`. -/
def pySlice (l : List Char) (stop : Int) : List Char :=
  if 0 ≤ stop then l.take stop.toNat
  else l.take (l.length - (-stop).toNat)

/-- Python's `text.rfind(c)` for a single-character needle: the largest index
holding `c`, and `-1` when there is none. -/
def pyRFind (c : Char) (l : List Char) : Int :=
  match l.reverse.findIdx? (fun x => x = c) with
  | none => -1
  | some i => (l.length : Int) - 1 - (i : Int)

/-- Python's whitespace `split()` (empty words dropped).  The `Nat` argument
is recursion fuel, always called with at least the list's length; it only
bounds the recursion depth. -/
def pySplitGo : Nat → List Char → List (List Char)
  | 0, _ => []
  | fuel + 1, l =>
    match l with
    | [] => []
    | c :: rest =>
      if isSpc c then pySplitGo fuel rest
      else (c :: rest.takeWhile (fun x => !isSpc x)) ::
        pySplitGo fuel (rest.dropWhile (fun x => !isSpc x))

/-- Python's whitespace `split()`. -/
def pySplit (l : List Char) : List (List Char) := pySplitGo l.length l

/-- `" ".join(words)`. -/
def joinWords : List (List Char) → List Char
  | [] => []
  | [w] => w
  | w :: ws => w ++ ' ' :: joinWords ws

/-- `text.split("\n")` (empty pieces kept). -/
def splitNl : List Char → List (List Char)
  | [] => [[]]
  | c :: rest =>
    if c = '\n' then [] :: splitNl rest
    else match splitNl rest with
      | w :: ws => (c :: w) :: ws
      | [] => [[c]]

/-- `"\n".join(lines)`. -/
def joinNl : List (List Char) → List Char
  | [] => []
  | [w] => w
  | w :: ws => w ++ '\n' :: joinNl ws

/-- `needle in haystack`, Python's substring test. -/
def isSubstr (p l : List Char) : Bool := decide (p <:+: l)

/-! ## `utils.truncate_tweet` -/

/-- `utils.truncate_tweet`: truncate `text` to `max_length`, preferring a cut
at a late newline (no ellipsis) or a late space, else a hard cut, appending
`"..."` in the latter two cases.  The arithmetic (`max_length - 3`, the
`0.5`/`0.8` fractions, `rfind`'s `-1`) follows the Python source exactly;
`last_space > max_length * 0.8` is rendered as `5*last_space > 4*max_length`,
which agrees with the float comparison for integer operands. -/
def truncate_tweet (text : List Char) (maxLength : Int) : List Char :=
  if (text.length : Int) ≤ maxLength then text
  else
    let truncated := pySlice text (maxLength - 3)
    let lastNewline := pyRFind '\n' truncated
    if 2 * lastNewline > maxLength then
      pyRStrip (pySlice truncated lastNewline)
    else
      let lastSpace := pyRFind ' ' truncated
      if 5 * lastSpace > 4 * maxLength then
        pySlice truncated lastSpace ++ ['.', '.', '.']
      else
        truncated ++ ['.', '.', '.']


/-! ## `tweet_generator.clean_tweet`: the regex substitution passes -/

/-- `re.sub(r'\*\*([^*]+)\*\*', r'\1', text)`: collapse `**bold**` spans.
Scans left to right; on a failed match at a `*` it re-scans from the next
character, as the regex engine does. -/
def subBoldGo : Nat → List Char → List Char
  | 0, l => l
  | fuel + 1, l =>
    match l with
    | '*' :: '*' :: rest =>
      if rest.takeWhile (fun x => x ≠ '*') ≠ [] then
        match rest.dropWhile (fun x => x ≠ '*') with
        | '*' :: '*' :: tail => rest.takeWhile (fun x => x ≠ '*') ++ subBoldGo fuel tail
        | _ => '*' :: subBoldGo fuel ('*' :: rest)
      else '*' :: subBoldGo fuel ('*' :: rest)
    | c :: rest => c :: subBoldGo fuel rest
    | [] => []

def subBold (l : List Char) : List Char := subBoldGo l.length l

/-- `re.sub(r'__([^_]+)__', r'\1', text)`. -/
def subBoldUGo : Nat → List Char → List Char
  | 0, l => l
  | fuel + 1, l =>
    match l with
    | '_' :: '_' :: rest =>
      if rest.takeWhile (fun x => x ≠ '_') ≠ [] then
        match rest.dropWhile (fun x => x ≠ '_') with
        | '_' :: '_' :: tail => rest.takeWhile (fun x => x ≠ '_') ++ subBoldUGo fuel tail
        | _ => '_' :: subBoldUGo fuel ('_' :: rest)
      else '_' :: subBoldUGo fuel ('_' :: rest)
    | c :: rest => c :: subBoldUGo fuel rest
    | [] => []

def subBoldU (l : List Char) : List Char := subBoldUGo l.length l

/-- `re.sub(r'\*([^*]+)\*', r'\1', text)`. -/
def subItalGo : Nat → List Char → List Char
  | 0, l => l
  | fuel + 1, l =>
    match l with
    | '*' :: rest =>
      if rest.takeWhile (fun x => x ≠ '*') ≠ [] then
        match rest.dropWhile (fun x => x ≠ '*') with
        | '*' :: tail => rest.takeWhile (fun x => x ≠ '*') ++ subItalGo fuel tail
        | _ => '*' :: subItalGo fuel (rest)
      else '*' :: subItalGo fuel (rest)
    | c :: rest => c :: subItalGo fuel rest
    | [] => []

def subItal (l : List Char) : List Char := subItalGo l.length l

/-- `re.sub(r'_([^_]+)_', r'\1', text)`. -/
def subItalUGo : Nat → List Char → List Char
  | 0, l => l
  | fuel + 1, l =>
    match l with
    | '_' :: rest =>
      if rest.takeWhile (fun x => x ≠ '_') ≠ [] then
        match rest.dropWhile (fun x => x ≠ '_') with
        | '_' :: tail => rest.takeWhile (fun x => x ≠ '_') ++ subItalUGo fuel tail
        | _ => '_' :: subItalUGo fuel (rest)
      else '_' :: subItalUGo fuel (rest)
    | c :: rest => c :: subItalUGo fuel rest
    | [] => []

def subItalU (l : List Char) : List Char := subItalUGo l.length l

/-- `re.sub(r'\s+\*\s+', ' ', text)` and its `_` twin: an isolated `mark`
between nonempty whitespace runs collapses, with the runs, to one space. -/
def subMarkWsGo (mark : Char) : Nat → List Char → List Char
  | 0, l => l
  | fuel + 1, l =>
    match l with
    | [] => []
    | c :: rest =>
      if isSpc c then
        match (c :: rest).dropWhile isSpc with
        | m :: r2 =>
          if m = mark && r2.takeWhile isSpc ≠ [] then
            ' ' :: subMarkWsGo mark fuel (r2.dropWhile isSpc)
          else c :: subMarkWsGo mark fuel rest
        | [] => c :: subMarkWsGo mark fuel rest
      else c :: subMarkWsGo mark fuel rest

def subMarkWs (mark : Char) (l : List Char) : List Char := subMarkWsGo mark l.length l

/-- `re.sub(r'\s*\*\s*', ' ', line)` and its `_` twin: a `mark` with optional
surrounding whitespace collapses to a single space (the per-line variant). -/
def subMarkWs0Go (mark : Char) : Nat → List Char → List Char
  | 0, l => l
  | fuel + 1, l =>
    match l with
    | [] => []
    | c :: rest =>
      if c = mark then ' ' :: subMarkWs0Go mark fuel (rest.dropWhile isSpc)
      else if isSpc c then
        match (c :: rest).dropWhile isSpc with
        | m :: r2 =>
          if m = mark then ' ' :: subMarkWs0Go mark fuel (r2.dropWhile isSpc)
          else c :: subMarkWs0Go mark fuel rest
        | [] => c :: subMarkWs0Go mark fuel rest
      else c :: subMarkWs0Go mark fuel rest

def subMarkWs0 (mark : Char) (l : List Char) : List Char := subMarkWs0Go mark l.length l

/-- `re.sub(r'\s+', ' ', line)`: collapse every whitespace run to one space. -/
def normSpacesGo : Nat → List Char → List Char
  | 0, l => l
  | fuel + 1, l =>
    match l with
    | [] => []
    | c :: rest =>
      if isSpc c then ' ' :: normSpacesGo fuel (rest.dropWhile isSpc)
      else c :: normSpacesGo fuel rest

def normSpaces (l : List Char) : List Char := normSpacesGo l.length l


/-! ## `clean_tweet`: lead-in prefixes, meta phrases, quote handling -/

/-- The `prefixes_to_remove` list of `clean_tweet`, in source order. -/
def leadIns : List (List Char) :=
  ["tweet:".data, "here's a tweet:".data, "okay, here's".data, "here's".data,
   "okay,".data, "alright,".data, "so,".data, "well,".data]

/-- The whole-text prefix-stripping loop of `clean_tweet` (lines 231-238):
the first prefix of `text.lower()` found is cut from `text`, a following
colon is also cut, and the result is stripped. -/
def leadInStrip (text : List Char) : List Char :=
  match leadIns.find? (fun p => p.isPrefixOf (pyLower text)) with
  | none => text
  | some p =>
    let t := pyStrip (text.drop p.length)
    if t.head? = some ':' then pyStrip (t.drop 1) else t

/-- The per-line variant (lines 272-290): the prefix is looked up in
`line.lower().strip()` but cut from the unstripped `line`. -/
def leadInStripLine (line : List Char) : List Char :=
  match leadIns.find? (fun p => p.isPrefixOf (pyStrip (pyLower line))) with
  | none => line
  | some p =>
    let t := pyStrip (line.drop p.length)
    if t.head? = some ':' then pyStrip (t.drop 1) else t

/-- The four `meta_phrases` of `clean_tweet`. -/
def metaPhrases : List (List Char) :=
  ["channeling my inner".data, "designed to go viral".data,
   "here's what i think".data, "my take".data]

/-- First index at which `p` occurs as a substring of `l`. -/
def findSubIdx (p l : List Char) : Option Nat :=
  (List.range (l.length + 1)).find? (fun i => p.isPrefixOf (l.drop i))

/-- `re.sub(r"^.*?PHRASE.*?:", "", text, flags=re.IGNORECASE)`: the lazy
anchored pattern deletes everything up to the first `:` at or after the
first (case-insensitive) occurrence of the phrase; `.` does not cross a
newline, so both must sit on the first line. -/
def metaSub (phrase text : List Char) : List Char :=
  let firstLine := text.takeWhile (fun c => c ≠ '\n')
  match findSubIdx phrase (pyLower firstLine) with
  | none => text
  | some k =>
    match (firstLine.drop (k + phrase.length)).findIdx? (fun c => c = ':') with
    | none => text
    | some j => text.drop (k + phrase.length + j + 1)

/-- The `meta_phrases` loop: each phrase's sub followed by `.strip()`. -/
def metaAll (text : List Char) : List Char :=
  metaPhrases.foldl (fun t p => pyStrip (metaSub p t)) text

/-- The commentary marker words of the quote-extraction step. -/
def commentWords : List (List Char) :=
  ["tweet".data, "here".data, "okay".data, "channeling".data, "designed".data]

/-- `re.search(r'["\']([^"\']+)["\'])', text)`: index of the leftmost match
and its first capture group (the span between two, possibly mismatched,
quote characters). -/
def findQMatch : List Char → Option (Nat × List Char)
  | [] => none
  | c :: rest =>
    if isQuoteChar c && !(rest.takeWhile (fun x => !isQuoteChar x)).isEmpty &&
        !(rest.dropWhile (fun x => !isQuoteChar x)).isEmpty then
      some (0, rest.takeWhile (fun x => !isQuoteChar x))
    else
      match findQMatch rest with
      | some (i, w) => some (i + 1, w)
      | none => none

/-- The quoted-span extraction of `clean_tweet` (lines 253-260 and 319-324):
when the text contains `:"` or `:'` and the part before the first quoted
span is long commentary, the span's contents replace the whole text. -/
def quoteExtract (text : List Char) : List Char :=
  if isSubstr [':', '"'] text || isSubstr [':', '\''] text then
    match findQMatch text with
    | some (p, w) =>
      let before := pyStrip (text.take p)
      if decide (20 < before.length) &&
          commentWords.any (fun ww => isSubstr ww (pyLower before)) then w
      else text
    | none => text
  else text

/-- One `if text.strip().startswith(q) and text.strip().endswith(q)` strip:
the stripped text loses its first and last character. -/
def qstripOuter (q : Char) (l : List Char) : List Char :=
  if (pyStrip l).head? = some q ∧ (pyStrip l).getLast? = some q then
    ((pyStrip l).drop 1).dropLast
  else l

/-- The unstripped variant `if text.startswith(q) and text.endswith(q)`. -/
def qstripRaw (q : Char) (l : List Char) : List Char :=
  if l.head? = some q ∧ l.getLast? = some q then (l.drop 1).dropLast else l

/-- The final `if text.strip().lower().startswith("tweet:"): text = text[6:].strip()`. -/
def tweetTagStrip (text : List Char) : List Char :=
  if ("tweet:".data).isPrefixOf (pyLower (pyStrip text)) then pyStrip (text.drop 6)
  else text

/-- The per-line body of `clean_tweet`'s line loop (lines 266-307). -/
def cleanLine (line : List Char) : List Char :=
  let l1 := subMarkWs0 '*' line
  let l2 := subMarkWs0 '_' l1
  let l3 := normSpaces l2
  let l4 := leadInStripLine l3
  pyStrip (metaAll l4)

/-- `tweet_generator.clean_tweet`: the full sanitizer pipeline, stage for
stage in source order. -/
def clean_tweet (text : List Char) : List Char :=
  let t1 := qstripOuter '"' text
  let t2 := qstripOuter '\'' t1
  let t3 := qstripRaw '"' t2
  let t4 := qstripRaw '\'' t3
  let t5 := subBold t4
  let t6 := subBoldU t5
  let t7 := subItal t6
  let t8 := subItalU t7
  let t9 := subMarkWs '*' t8
  let t10 := subMarkWs '_' t9
  let t11 := leadInStrip t10
  let t12 := metaAll t11
  let t13 := quoteExtract t12
  let t14 := joinNl ((splitNl t13).map cleanLine)
  let t15 := qstripOuter '"' t14
  let t16 := qstripOuter '\'' t15
  let t17 := quoteExtract t16
  let t18 := tweetTagStrip t17
  pyStrip t18

/-! ## `tweet_generator.add_line_breaks` -/

/-- `re.sub(r'([.!?])\s+([A-Z])', r'\1\n\n\2', text)`: a paragraph break
between a sentence end and the next capitalised word. -/
def addBreaks1Go : Nat → List Char → List Char
  | 0, l => l
  | fuel + 1, l =>
    match l with
    | [] => []
    | [c] => [c]
    | c :: d :: rest =>
      if isPunc c && isSpc d then
        match rest.dropWhile isSpc with
        | e :: rest2 =>
          if isCapital e then c :: '\n' :: '\n' :: e :: addBreaks1Go fuel rest2
          else c :: d :: (rest.takeWhile isSpc ++ addBreaks1Go fuel (e :: rest2))
        | [] => c :: d :: rest
      else c :: addBreaks1Go fuel (d :: rest)

def addBreaks1 (l : List Char) : List Char := addBreaks1Go l.length l

/-- The second pattern's middle token: one character of the (mojibake) emoji
class of the source line 184, or `#` followed by a nonempty `\w+` run. -/
def isEmojiByteChar (c : Char) : Bool :=
  c.toNat = 0xf0 || c.toNat = 0x178 || c.toNat = 0xa4 || c.toNat = 0xaf ||
  c.toNat = 0x2dc || c.toNat = 0xad || c.toNat = 0x201d || c.toNat = 0x201a ||
  c.toNat = 0x201c || c.toNat = 0x2030

/-- Parse the `([EMOJI]|#\w+)` alternative, returning the token and the rest. -/
def hashTok (r1 : List Char) : Option (List Char × List Char) :=
  match r1 with
  | [] => none
  | t :: r2 =>
    if isEmojiByteChar t then some ([t], r2)
    else if t = '#' && !(r2.takeWhile isWordChar).isEmpty then
      some (t :: r2.takeWhile isWordChar, r2.dropWhile isWordChar)
    else none

theorem hashTok_length_lt {r1 tok r2 : List Char} (h : hashTok r1 = some (tok, r2)) :
    r2.length < r1.length := by
  match r1 with
  | [] => simp [hashTok] at h
  | t :: r2' =>
    have hd := (@List.dropWhile_suffix Char r2' isWordChar).length_le
    simp only [hashTok] at h
    split_ifs at h with h1 h2 <;> simp_all <;> omega

/-- `re.sub(r'([.!?])\s+([EMOJI]|#\w+)\s+([A-Z])', r'\1 \2\n\n\3', text)`:
a sentence end followed by an emoji/hashtag token and a capitalised word
gets its break after the token. -/
def addBreaks2Go : Nat → List Char → List Char
  | 0, l => l
  | fuel + 1, l =>
    match l with
    | [] => []
    | c :: rest =>
      if isPunc c && !(rest.takeWhile isSpc).isEmpty then
        match hashTok (rest.dropWhile isSpc) with
        | some (tok, r2) =>
          if !(r2.takeWhile isSpc).isEmpty then
            match r2.dropWhile isSpc with
            | e :: r4 =>
              if isCapital e then
                c :: ' ' :: (tok ++ '\n' :: '\n' :: e :: addBreaks2Go fuel r4)
              else c :: addBreaks2Go fuel rest
            | [] => c :: addBreaks2Go fuel rest
          else c :: addBreaks2Go fuel rest
        | none => c :: addBreaks2Go fuel rest
      else c :: addBreaks2Go fuel rest

def addBreaks2 (l : List Char) : List Char := addBreaks2Go l.length l

/-- `tweet_generator.add_line_breaks`: both substitutions then `.strip()`. -/
def add_line_breaks (text : List Char) : List Char :=
  pyStrip (addBreaks2 (addBreaks1 text))

/-! ## `utils.validate_tweet` -/

/-- `re.search(r'\*\*[^*]+\*\*', text)` as a Bool. -/
def hasMdBold (l : List Char) : Bool :=
  l.tails.any fun t =>
    match t with
    | '*' :: '*' :: rest =>
      !(rest.takeWhile (fun x => x ≠ '*')).isEmpty &&
      (match rest.dropWhile (fun x => x ≠ '*') with
       | '*' :: '*' :: _ => true
       | _ => false)
    | _ => false

/-- `re.search(r'\*[^*]+\*', text)` as a Bool. -/
def hasMdItal (l : List Char) : Bool :=
  l.tails.any fun t =>
    match t with
    | '*' :: rest =>
      !(rest.takeWhile (fun x => x ≠ '*')).isEmpty &&
      !(rest.dropWhile (fun x => x ≠ '*')).isEmpty
    | _ => false

/-- `re.search(r'__[^_]+__', text)` as a Bool. -/
def hasMdBoldU (l : List Char) : Bool :=
  l.tails.any fun t =>
    match t with
    | '_' :: '_' :: rest =>
      !(rest.takeWhile (fun x => x ≠ '_')).isEmpty &&
      (match rest.dropWhile (fun x => x ≠ '_') with
       | '_' :: '_' :: _ => true
       | _ => false)
    | _ => false

/-- `re.search(r'_[^_]+_', text)` as a Bool. -/
def hasMdItalU (l : List Char) : Bool :=
  l.tails.any fun t =>
    match t with
    | '_' :: rest =>
      !(rest.takeWhile (fun x => x ≠ '_')).isEmpty &&
      !(rest.dropWhile (fun x => x ≠ '_')).isEmpty
    | _ => false

/-- The `forbidden_phrases` of `utils.validate_tweet`. -/
def forbiddenPhrases : List (List Char) :=
  ["as an ai".data, "as a language model".data, "as an artificial intelligence".data,
   "in this article".data, "according to".data, "here's a tweet".data,
   "okay, here's".data, "channeling my inner".data, "designed to go viral".data,
   "here's what i think".data, "my take on".data, "let me tell you".data]

/-- The `meta_starters` of `utils.validate_tweet`. -/
def metaStarters : List (List Char) :=
  ["okay,".data, "alright,".data, "so,".data, "well,".data, "here's".data, "let me".data]

/-- The follow-on words of the starter guard. -/
def followWords : List (List Char) :=
  ["tweet".data, "here".data, "tell".data, "think".data]

/-- `utils.validate_tweet`: reject on denylisted phrases, leftover markdown,
or a narration opener among the first three words that also carries a
follow-on word. -/
def validate_tweet (text : List Char) : Bool :=
  let lower := pyLower text
  if forbiddenPhrases.any (fun p => isSubstr p lower) then false
  else if hasMdBold text || hasMdItal text then false
  else if hasMdBoldU text || hasMdItalU text then false
  else
    let firstText := joinWords ((pySplit lower).take 3)
    if metaStarters.any (fun st => st.isPrefixOf firstText &&
        followWords.any (fun w => isSubstr w firstText)) then false
    else true

/-! ## `generate_tweet`: link budgeting and assembly (lines 115-157) -/

/-- The reserved link length: 23 on the free tier (`max_total <= 280`),
else `min(len(link), 100)`. -/
def reservedLen (link : List Char) (maxTotal : Int) : Int :=
  if maxTotal ≤ 280 then 23 else min (link.length : Int) 100

/-- `max_tweet_length = TWEET_MAX_LENGTH - url_length - 1`. -/
def bodyBudget (link : List Char) (maxTotal : Int) : Int :=
  maxTotal - reservedLen link maxTotal - 1

/-- `if "\n" not in tweet and len(tweet) > 50: tweet = add_line_breaks(tweet)`. -/
def lineBreakFix (t : List Char) : List Char :=
  if !t.contains '\n' && decide (50 < t.length) then add_line_breaks t else t

/-- The body of `generate_tweet` after validation: reserve link space,
truncate, re-add line breaks, concatenate, and run the defensive second
pass once if the result exceeds `max_total`. -/
def assemble (tweet link : List Char) (maxTotal : Int) : List Char :=
  if link ≠ [] then
    let t1 := lineBreakFix (truncate_tweet tweet (bodyBudget link maxTotal))
    let final1 := t1 ++ ' ' :: link
    if (final1.length : Int) > maxTotal then
      lineBreakFix (truncate_tweet t1 (maxTotal - (link.length : Int) - 1)) ++ ' ' :: link
    else final1
  else
    lineBreakFix (truncate_tweet tweet maxTotal)

/-- `generate_tweet` from the raw model response on: clean, break, validate,
assemble; `None` when validation fails or the result is the empty string. -/
def genPipeline (raw link : List Char) (maxTotal : Int) : Option (List Char) :=
  let tweet0 := clean_tweet raw
  let tweet1 := if !tweet0.contains '\n' then add_line_breaks tweet0 else tweet0
  if !validate_tweet tweet1 then none
  else
    let f := assemble tweet1 link maxTotal
    if f ≠ [] then some f else none

/-! ## `bot.main` and `x_client.post_tweet` -/

/-- An RSS article as `bot.main` consumes it. -/
structure Article where
  title : List Char
  summary : List Char
  source : List Char
  link : List Char
deriving DecidableEq

/-- `bot.TWEETS_PER_RUN`. -/
def TWEETS_PER_RUN : Nat := 1

/-- `utils.filter_new_links`. -/
def filter_new_links (links posted : List (List Char)) : List (List Char) :=
  links.filter (fun l => !posted.contains l)

/-- The articles `bot.main` submits to generation: those whose link survives
`filter_new_links`, capped at `TWEETS_PER_RUN`. -/
def articlesToPost (articles : List Article) (posted : List (List Char)) : List Article :=
  (articles.filter (fun a =>
    (filter_new_links (articles.map Article.link) posted).contains a.link)).take TWEETS_PER_RUN

/-- The links `bot.main` appends to the ledger during a run, with the
generation and posting backends as oracles: a link is appended exactly when
generation produced a tweet and `post_tweet` reported success. -/
def runAppends (articles : List Article) (posted : List (List Char))
    (gen : Article → Option (List Char)) (post : List Char → Bool) : List (List Char) :=
  (articlesToPost articles posted).filterMap (fun a =>
    (gen a).bind (fun t => if post t then some a.link else none))

/-- The ledger file at the end of a run: the loaded ledger plus the appends. -/
def finalLedger (articles : List Article) (posted : List (List Char))
    (gen : Article → Option (List Char)) (post : List Char → Bool) : List (List Char) :=
  posted ++ runAppends articles posted gen post

/-- The texts handed to `post_tweet` during a run (one per article whose
generation succeeded). -/
def postAttempts (articles : List Article) (posted : List (List Char))
    (gen : Article → Option (List Char)) : List (List Char) :=
  (articlesToPost articles posted).filterMap gen

/-- A response of the posting backend as `x_client.post_tweet` distinguishes
them. -/
inductive XResp where
  | status (code : Nat)
  | timeout
  | reqError
  | otherError
deriving DecidableEq

/-- How one attempt's response is handled. -/
inductive POutcome where
  | success
  | hard429
  | retryable
  | failOther
deriving DecidableEq

/-- `x_client.post_tweet`'s per-response classification: 201 succeeds, 429
stops with no retry, 5xx/timeout/request errors are retryable, anything
else fails the item. -/
def classifyResp : XResp → POutcome
  | .status 201 => .success
  | .status 429 => .hard429
  | .status c => if c = 500 || c = 502 || c = 503 || c = 504 then .retryable else .failOther
  | .timeout => .retryable
  | .reqError => .retryable
  | .otherError => .failOther

/-- `x_client.post_tweet` with the responses of the (at most two) attempts
as oracles: returns whether it reported success and how many attempts it
made.  A retryable first response triggers exactly one retry (the recursive
call runs with `retry=False`); a 429 returns immediately. -/
def post_tweet (r1 r2 : XResp) : Bool × Nat :=
  match classifyResp r1 with
  | .success => (true, 1)
  | .hard429 => (false, 1)
  | .failOther => (false, 1)
  | .retryable =>
    match classifyResp r2 with
    | .success => (true, 2)
    | _ => (false, 2)

/-! ## Length lemmas for slicing, stripping and truncation -/

theorem pySlice_length_le (l : List Char) (stop : Int) : (pySlice l stop).length ≤ l.length := by
  unfold pySlice
  split <;> simp [List.length_take]

theorem pySlice_length_eq (l : List Char) (stop : Int) (h0 : 0 ≤ stop)
    (hle : stop ≤ (l.length : Int)) : ((pySlice l stop).length : Int) = stop := by
  unfold pySlice
  rw [if_pos h0]
  simp only [List.length_take]
  omega

theorem pyRStrip_length_le (l : List Char) : (pyRStrip l).length ≤ l.length := by
  unfold pyRStrip
  have h := (@List.dropWhile_suffix Char l.reverse isSpc).length_le
  simp only [List.length_reverse] at h ⊢
  exact h

theorem pyLStrip_length_le (l : List Char) : (pyLStrip l).length ≤ l.length :=
  (@List.dropWhile_suffix Char l isSpc).length_le

theorem pyStrip_length_le (l : List Char) : (pyStrip l).length ≤ l.length :=
  le_trans (pyLStrip_length_le (pyRStrip l)) (pyRStrip_length_le l)

theorem truncate_tweet_length_le (t : List Char) (n : Int) (h3 : 3 ≤ n)
    (hgt : n < (t.length : Int)) : ((truncate_tweet t n).length : Int) ≤ n := by
  unfold truncate_tweet
  rw [if_neg (by omega)]
  have hts : ((pySlice t (n - 3)).length : Int) = n - 3 :=
    pySlice_length_eq t (n - 3) (by omega) (by omega)
  dsimp only
  split
  · have h1 := pyRStrip_length_le (pySlice (pySlice t (n - 3)) (pyRFind '\n' (pySlice t (n - 3))))
    have h2 := pySlice_length_le (pySlice t (n - 3)) (pyRFind '\n' (pySlice t (n - 3)))
    omega
  · split
    · have h2 := pySlice_length_le (pySlice t (n - 3)) (pyRFind ' ' (pySlice t (n - 3)))
      simp only [List.length_append, List.length_cons, List.length_nil]
      omega
    · simp only [List.length_append, List.length_cons, List.length_nil]
      omega

/-- C2's true half: `truncate(T, N)` returns `T` unchanged when it fits. -/
theorem truncate_tweet_id (t : List Char) (n : Int) (hle : (t.length : Int) ≤ n) :
    truncate_tweet t n = t := by
  unfold truncate_tweet
  exact if_pos hle

/-! ## Claim C2: `truncate` length contract -/

/-- C2 (counterexample): at `T = "aaaaaa"`, `N = 0` we have `len(T) > N`, yet
`truncate_tweet` returns a six-character string (the negative slice
`text[:N-3]` re-exposes the tail), so its length is not `≤ N`. -/
theorem C2_counterexample :
    (0 : Int) < (("aaaaaa".data : List Char).length : Int) ∧
    ¬ ((truncate_tweet "aaaaaa".data 0).length : Int) ≤ 0 := by
  constructor
  · decide
  · decide

/-- C2 (amended): for every text `T` and limit `N ≥ 3`, `truncate(T, N)`
returns `T` unchanged when `len(T) <= N` and a string of length at most `N`
(ellipsis included) when `len(T) > N`.  For `N < 3` the slice `T[:N-3]`
wraps around and the bound fails. -/
theorem C2_truncate_spec (t : List Char) (n : Int) (h3 : 3 ≤ n) :
    ((t.length : Int) ≤ n → truncate_tweet t n = t) ∧
    (n < (t.length : Int) → ((truncate_tweet t n).length : Int) ≤ n) := by
  exact ⟨truncate_tweet_id t n, truncate_tweet_length_le t n h3⟩

theorem C2_truncate_spec_witness :
    truncate_tweet "hello".data 8 = "hello".data ∧
    ((truncate_tweet "hello world again".data 8).length : Int) ≤ 8 :=
  ⟨(C2_truncate_spec "hello".data 8 (by decide)).1 (by decide),
   (C2_truncate_spec "hello world again".data 8 (by decide)).2 (by decide)⟩

/-! ## Claim C9: reserved link length and body budget -/

/-- C9: in `assemble`, the reserved link length is the constant 23 when
`max_total <= 280` and `min(len(link), 100)` otherwise; the truncation
budget is `max_total - reserved - 1`; in particular a 50-character link at
`max_total = 280` leaves a 256-character body budget. -/
theorem C9_reserved_budget (link : List Char) (maxTotal : Int) :
    (maxTotal ≤ 280 → reservedLen link maxTotal = 23) ∧
    (280 < maxTotal → reservedLen link maxTotal = min (link.length : Int) 100) ∧
    bodyBudget link maxTotal = maxTotal - reservedLen link maxTotal - 1 ∧
    (link.length = 50 → bodyBudget link 280 = 256) := by
  refine ⟨fun h => ?_, fun h => ?_, rfl, fun h => ?_⟩
  · simp [reservedLen, h]
  · simp [reservedLen, if_neg (by omega : ¬ maxTotal ≤ 280)]
  · simp [bodyBudget, reservedLen]

theorem C9_reserved_budget_witness :
    reservedLen (List.replicate 50 'x') 280 = 23 ∧
    bodyBudget (List.replicate 50 'x') 280 = 256 ∧
    reservedLen (List.replicate 50 'x') 281 = 50 :=
  ⟨(C9_reserved_budget (List.replicate 50 'x') 280).1 (by decide),
   (C9_reserved_budget (List.replicate 50 'x') 280).2.2.2 (by decide),
   by rw [(C9_reserved_budget (List.replicate 50 'x') 281).2.1 (by decide)]; decide⟩

/-! ## Claim C1: `assemble` respects `max_total` -/

set_option maxRecDepth 40000 in
/-- C1 (counterexample): with body `"Hello world"`, a 300-character link (one
of the claim's named link lengths) and `max_total = 280`, the assembled post
is 301 characters, exceeding `max_total` even after the defensive second
pass (whose recomputed budget is negative). -/
theorem C1_counterexample :
    ¬ ((assemble "Hello world".data (List.replicate 300 'x') 280).length : Int) ≤ 280 := by
  decide

/-- C1 (amended): the assembled post stays within `max_total` provided the
ceiling leaves room for the real link plus separator and ellipsis
(`len(link) + 4 <= max_total`) and the defensive second pass's re-truncated
body is left unchanged by the line-break re-normalization (as when it still
contains a newline, or is at most 50 characters).  Without these provisos
the bound fails: a link longer than `max_total - 4` drives the recomputed
budget negative, and the re-normalization can grow the body past the
budget. -/
theorem C1_assemble_fits (tweet link : List Char) (maxTotal : Int)
    (hlink : link ≠ [])
    (hroom : (link.length : Int) + 4 ≤ maxTotal)
    (hnb : lineBreakFix (truncate_tweet
        (lineBreakFix (truncate_tweet tweet (bodyBudget link maxTotal)))
        (maxTotal - (link.length : Int) - 1)) =
      truncate_tweet (lineBreakFix (truncate_tweet tweet (bodyBudget link maxTotal)))
        (maxTotal - (link.length : Int) - 1)) :
    ((assemble tweet link maxTotal).length : Int) ≤ maxTotal := by
  unfold assemble
  rw [if_pos hlink]
  dsimp only
  split
  · rename_i hgt
    rw [hnb]
    have hlen : maxTotal - (link.length : Int) - 1 <
        ((lineBreakFix (truncate_tweet tweet (bodyBudget link maxTotal))).length : Int) := by
      simp only [List.length_append, List.length_cons] at hgt
      push_cast at hgt ⊢
      omega
    have h := truncate_tweet_length_le _ (maxTotal - (link.length : Int) - 1) (by omega) hlen
    simp only [List.length_append, List.length_cons]
    push_cast
    omega
  · rename_i hle
    push_cast at hle ⊢
    omega

theorem C1_assemble_fits_witness :
    ((assemble "Hi there everyone fun".data "http://a/b".data 280).length : Int) ≤ 280 :=
  C1_assemble_fits "Hi there everyone fun".data "http://a/b".data 280
    (by decide) (by decide) (by decide)

/-! ## Claim C4: deduplication and ledger commit ordering -/

/-- C4: during a run, no article whose link is already in the loaded ledger
is ever handed to generation, and a link is appended to the ledger only for
an article whose generated tweet the posting capability confirmed. -/
theorem C4_dedup_ledger (articles : List Article) (posted : List (List Char))
    (gen : Article → Option (List Char)) (post : List Char → Bool) :
    (∀ a ∈ articlesToPost articles posted, a.link ∉ posted) ∧
    (∀ l ∈ runAppends articles posted gen post,
      ∃ a ∈ articlesToPost articles posted,
        a.link = l ∧ ∃ t, gen a = some t ∧ post t = true) := by
  constructor
  · intro a ha
    have ha' := List.mem_of_mem_take ha
    have hf := (List.mem_filter.mp ha').2
    have hmem : a.link ∈ filter_new_links (articles.map Article.link) posted := by
      simpa using hf
    have h2 := (List.mem_filter.mp hmem).2
    simpa using h2
  · intro l hl
    obtain ⟨a, ha, heq⟩ := List.mem_filterMap.mp hl
    refine ⟨a, ha, ?_⟩
    cases hg : gen a with
    | none => rw [hg] at heq; cases heq
    | some t =>
      rw [hg] at heq
      simp only [Option.some_bind] at heq
      by_cases hp : post t = true
      · rw [if_pos hp] at heq
        exact ⟨Option.some_injective _ heq, t, rfl, hp⟩
      · rw [if_neg hp] at heq; cases heq

theorem C4_dedup_ledger_witness :
    ((⟨"t".data, "s".data, "w".data, "L1".data⟩ : Article).link ∉
      (["L0".data] : List (List Char))) ∧
    (∃ a ∈ articlesToPost [⟨"t".data, "s".data, "w".data, "L1".data⟩] ["L0".data],
      a.link = "L1".data ∧
      ∃ t, (fun (_ : Article) => some ['x']) a = some t ∧
        (fun (_ : List Char) => true) t = true) :=
  ⟨(C4_dedup_ledger [⟨"t".data, "s".data, "w".data, "L1".data⟩] ["L0".data]
      (fun _ => some ['x']) (fun _ => true)).1
      ⟨"t".data, "s".data, "w".data, "L1".data⟩ (by decide),
   (C4_dedup_ledger [⟨"t".data, "s".data, "w".data, "L1".data⟩] ["L0".data]
      (fun _ => some ['x']) (fun _ => true)).2 "L1".data (by decide)⟩

/-! ## Claim C7: 429 handling -/

/-- C7: a 429 from the posting backend is answered by a single attempt (no
retry, whatever the second response would have been); a run hands at most
`TWEETS_PER_RUN = 1` text to `post_tweet`, so no further items are attempted
after a rate-limited one; and every article whose post was confirmed has its
link in the final ledger. -/
theorem C7_rate_limit (articles : List Article) (posted : List (List Char))
    (gen : Article → Option (List Char)) (post : List Char → Bool) (r1 r2 : XResp) :
    (classifyResp r1 = POutcome.hard429 → post_tweet r1 r2 = (false, 1)) ∧
    (postAttempts articles posted gen).length ≤ 1 ∧
    (∀ a ∈ articlesToPost articles posted, ∀ t, gen a = some t → post t = true →
      a.link ∈ finalLedger articles posted gen post) := by
  refine ⟨fun h429 => ?_, ?_, fun a ha t hg hp => ?_⟩
  · unfold post_tweet
    rw [h429]
  · have h1 := List.length_filterMap_le gen (articlesToPost articles posted)
    have h2 : (articlesToPost articles posted).length ≤ 1 := by
      unfold articlesToPost TWEETS_PER_RUN
      exact List.length_take_le 1 _
    unfold postAttempts
    omega
  · unfold finalLedger
    refine List.mem_append.mpr (Or.inr ?_)
    exact List.mem_filterMap.mpr ⟨a, ha, by simp [hg, hp]⟩

theorem C7_rate_limit_witness :
    post_tweet (XResp.status 429) (XResp.status 201) = (false, 1) ∧
    (postAttempts [⟨"t".data, "s".data, "w".data, "L1".data⟩] []
      (fun _ => some ['x'])).length ≤ 1 ∧
    ("L1".data ∈ finalLedger [⟨"t".data, "s".data, "w".data, "L1".data⟩] []
      (fun _ => some ['x']) (fun _ => true)) :=
  ⟨(C7_rate_limit [⟨"t".data, "s".data, "w".data, "L1".data⟩] []
      (fun _ => some ['x']) (fun _ => true) (XResp.status 429) (XResp.status 201)).1 rfl,
   (C7_rate_limit [⟨"t".data, "s".data, "w".data, "L1".data⟩] []
      (fun _ => some ['x']) (fun _ => true) (XResp.status 429) (XResp.status 201)).2.1,
   (C7_rate_limit [⟨"t".data, "s".data, "w".data, "L1".data⟩] []
      (fun _ => some ['x']) (fun _ => true) (XResp.status 429) (XResp.status 201)).2.2
      ⟨"t".data, "s".data, "w".data, "L1".data⟩ (by decide) ['x'] rfl rfl⟩

/-! ## Claim C8: empty generation output is not skipped -/

/-- C8 (code evaluated at the failing input): when the generation backend
returns the empty string and a link is present, the pipeline does not skip
the item: the empty body passes validation, and `generate_tweet` returns
`" " ++ link` — a post derived from the empty output — to be handed to the
publisher.  (Without a link the same empty output is correctly dropped.) -/
theorem C8_empty_output_not_skipped :
    genPipeline [] "http://ex.am/p".data 280 = some (' ' :: "http://ex.am/p".data) ∧
    genPipeline [] [] 280 = none := by
  constructor
  · decide
  · decide

/-! ## Claim C10: the validator rejects every text opening with "here's" -/

theorem joinWords_cons_pre (w : List Char) (ws : List (List Char)) :
    w <+: joinWords (w :: ws) := by
  cases ws with
  | nil => exact List.prefix_refl w
  | cons x xs => exact ⟨' ' :: joinWords (x :: xs), rfl⟩

/-- C10: any text whose first whitespace-delimited token, lowercased, begins
with `here's` is rejected by `validate_tweet`, whatever the rest of the text
contains: the starter `here's` matches, and the follow-on word `here` is
always a substring of the opener itself, so the guard cannot save it. -/
theorem C10_validator_rejects_heres (t w : List Char)
    (hw : (pySplit (pyLower t)).head? = some w)
    (hpre : "here's".data <+: w) :
    validate_tweet t = false := by
  obtain ⟨rest, hsplit⟩ : ∃ rest, pySplit (pyLower t) = w :: rest := by
    cases h : pySplit (pyLower t) with
    | nil => rw [h] at hw; cases hw
    | cons x xs => rw [h] at hw; cases hw; exact ⟨xs, rfl⟩
  have hft : "here's".data <+: joinWords ((pySplit (pyLower t)).take 3) := by
    rw [hsplit, List.take_succ_cons]
    exact hpre.trans (joinWords_cons_pre w _)
  have hD : metaStarters.any (fun st =>
      st.isPrefixOf (joinWords ((pySplit (pyLower t)).take 3)) &&
      followWords.any (fun u =>
        isSubstr u (joinWords ((pySplit (pyLower t)).take 3)))) = true := by
    rw [List.any_eq_true]
    refine ⟨"here's".data, by decide, ?_⟩
    rw [Bool.and_eq_true]
    constructor
    · exact List.isPrefixOf_iff_prefix.mpr hft
    · rw [List.any_eq_true]
      refine ⟨"here".data, by decide, ?_⟩
      unfold isSubstr
      rw [decide_eq_true_iff]
      exact ((show "here".data <+: "here's".data by decide).trans hft).isInfix
  unfold validate_tweet
  dsimp only
  split
  · rfl
  split
  · rfl
  split
  · rfl
  simp only [hD, if_true]

theorem C10_validator_rejects_heres_witness :
    validate_tweet "Here's the thing about Linux.".data = false :=
  C10_validator_rejects_heres "Here's the thing about Linux.".data "here's".data
    (by decide) (by decide)

/-! ## Fixed-point lemmas: plain lowercase text is untouched by the sanitizer -/

theorem lowerAZ_ne {c : Char} (h : isLowerAZ c = true) {d : Char}
    (hd : isLowerAZ d = false) : c ≠ d := by
  rintro rfl
  rw [h] at hd
  cases hd

theorem lowerAZ_not_spc {c : Char} (h : isLowerAZ c = true) : isSpc c = false := by
  simp only [isLowerAZ, Bool.and_eq_true, decide_eq_true_eq] at h
  simp only [isSpc, Bool.or_eq_false_iff, decide_eq_false_iff_not]
  refine ⟨⟨⟨⟨⟨?_, ?_⟩, ?_⟩, ?_⟩, ?_⟩, ?_⟩ <;> rintro rfl <;>
    exact absurd h.1 (by decide)

theorem lowerAZ_lowerChar {c : Char} (h : isLowerAZ c = true) : lowerChar c = c := by
  simp only [isLowerAZ, Bool.and_eq_true, decide_eq_true_eq] at h
  unfold lowerChar
  rw [if_neg]
  simp only [Bool.and_eq_true, decide_eq_true_eq, not_and]
  intro hA hZ
  exact absurd (le_trans h.1 hZ) (by decide)

theorem dropWhile_eq_self_of (p : Char → Bool) (l : List Char)
    (h : ∀ c ∈ l, p c = false) : l.dropWhile p = l := by
  cases l with
  | nil => rfl
  | cons a t =>
    rw [List.dropWhile_cons_of_neg]
    simp [h a (List.mem_cons_self a t)]

theorem takeWhile_eq_self_of (p : Char → Bool) (l : List Char)
    (h : ∀ c ∈ l, p c = true) : l.takeWhile p = l := by
  induction l with
  | nil => rfl
  | cons a t ih =>
    rw [List.takeWhile_cons_of_pos (h a (List.mem_cons_self a t))]
    rw [ih (fun c hc => h c (List.mem_cons_of_mem a hc))]

theorem pyLower_eq_self_of (l : List Char) (h : ∀ c ∈ l, isLowerAZ c = true) :
    pyLower l = l := by
  unfold pyLower
  rw [List.map_congr_left (fun c hc => lowerAZ_lowerChar (h c hc))]
  exact List.map_id l

theorem pyLStrip_eq_self_of (l : List Char) (h : ∀ c ∈ l, isSpc c = false) :
    pyLStrip l = l := dropWhile_eq_self_of isSpc l h

theorem pyRStrip_eq_self_of (l : List Char) (h : ∀ c ∈ l, isSpc c = false) :
    pyRStrip l = l := by
  unfold pyRStrip
  rw [dropWhile_eq_self_of isSpc l.reverse (fun c hc => h c (List.mem_reverse.mp hc))]
  exact List.reverse_reverse l

theorem pyStrip_eq_self_of (l : List Char) (h : ∀ c ∈ l, isSpc c = false) :
    pyStrip l = l := by
  unfold pyStrip
  rw [pyRStrip_eq_self_of l h, pyLStrip_eq_self_of l h]

theorem no_isPrefixOf_of_bad (p l : List Char) (hl : ∀ c ∈ l, isLowerAZ c = true)
    (c : Char) (hc : c ∈ p) (hbad : isLowerAZ c = false) :
    p.isPrefixOf l = false := by
  rw [Bool.eq_false_iff]
  intro hpre
  have hmem : c ∈ l := (List.isPrefixOf_iff_prefix.mp hpre).subset hc
  rw [hl c hmem] at hbad
  cases hbad

theorem isSubstr_false_of_bad (p l : List Char) (hl : ∀ c ∈ l, isLowerAZ c = true)
    (c : Char) (hc : c ∈ p) (hbad : isLowerAZ c = false) :
    isSubstr p l = false := by
  unfold isSubstr
  rw [decide_eq_false_iff_not]
  intro hinf
  have hmem : c ∈ l := hinf.subset hc
  rw [hl c hmem] at hbad
  cases hbad

theorem subBoldGo_id (fuel : Nat) (l : List Char) (h : ∀ c ∈ l, c ≠ '*') :
    subBoldGo fuel l = l := by
  induction fuel generalizing l with
  | zero => rfl
  | succ fuel ih =>
    rw [subBoldGo.eq_def]
    split
    · rfl
    split
    · exact absurd rfl (h '*' (List.mem_cons_self _ _))
    · rename_i fuel2 heq l2 c rest hno
      obtain rfl : fuel2 = fuel := by omega
      rw [ih rest (fun x hx => h x (List.mem_cons_of_mem c hx))]
    · rfl

theorem subBoldUGo_id (fuel : Nat) (l : List Char) (h : ∀ c ∈ l, c ≠ '_') :
    subBoldUGo fuel l = l := by
  induction fuel generalizing l with
  | zero => rfl
  | succ fuel ih =>
    rw [subBoldUGo.eq_def]
    split
    · rfl
    split
    · exact absurd rfl (h '_' (List.mem_cons_self _ _))
    · rename_i fuel2 heq l2 c rest hno
      obtain rfl : fuel2 = fuel := by omega
      rw [ih rest (fun x hx => h x (List.mem_cons_of_mem c hx))]
    · rfl

theorem subItalGo_id (fuel : Nat) (l : List Char) (h : ∀ c ∈ l, c ≠ '*') :
    subItalGo fuel l = l := by
  induction fuel generalizing l with
  | zero => rfl
  | succ fuel ih =>
    rw [subItalGo.eq_def]
    split
    · rfl
    split
    · exact absurd rfl (h '*' (List.mem_cons_self _ _))
    · rename_i fuel2 heq l2 c rest hno
      obtain rfl : fuel2 = fuel := by omega
      rw [ih rest (fun x hx => h x (List.mem_cons_of_mem c hx))]
    · rfl

theorem subItalUGo_id (fuel : Nat) (l : List Char) (h : ∀ c ∈ l, c ≠ '_') :
    subItalUGo fuel l = l := by
  induction fuel generalizing l with
  | zero => rfl
  | succ fuel ih =>
    rw [subItalUGo.eq_def]
    split
    · rfl
    split
    · exact absurd rfl (h '_' (List.mem_cons_self _ _))
    · rename_i fuel2 heq l2 c rest hno
      obtain rfl : fuel2 = fuel := by omega
      rw [ih rest (fun x hx => h x (List.mem_cons_of_mem c hx))]
    · rfl

theorem subMarkWsGo_id (mark : Char) (fuel : Nat) (l : List Char)
    (h : ∀ c ∈ l, isSpc c = false) : subMarkWsGo mark fuel l = l := by
  induction fuel generalizing l with
  | zero => rfl
  | succ fuel ih =>
    rw [subMarkWsGo.eq_def]
    split
    · rfl
    split
    · rfl
    · rename_i fuel2 heq l2 c rest
      obtain rfl : fuel2 = fuel := by omega
      rw [if_neg (by simp [h c (List.mem_cons_self _ _)])]
      rw [ih rest (fun x hx => h x (List.mem_cons_of_mem c hx))]

theorem subMarkWs0Go_id (mark : Char) (hmark : isLowerAZ mark = false)
    (fuel : Nat) (l : List Char) (h : ∀ c ∈ l, isLowerAZ c = true) :
    subMarkWs0Go mark fuel l = l := by
  induction fuel generalizing l with
  | zero => rfl
  | succ fuel ih =>
    rw [subMarkWs0Go.eq_def]
    split
    · rfl
    split
    · rfl
    · rename_i fuel2 heq l2 c rest
      obtain rfl : fuel2 = fuel := by omega
      rw [if_neg (by
        simpa using lowerAZ_ne (h c (List.mem_cons_self _ _)) hmark)]
      rw [if_neg (by simp [lowerAZ_not_spc (h c (List.mem_cons_self _ _))])]
      rw [ih rest (fun x hx => h x (List.mem_cons_of_mem c hx))]

theorem normSpacesGo_id (fuel : Nat) (l : List Char)
    (h : ∀ c ∈ l, isSpc c = false) : normSpacesGo fuel l = l := by
  induction fuel generalizing l with
  | zero => rfl
  | succ fuel ih =>
    rw [normSpacesGo.eq_def]
    split
    · rfl
    split
    · rfl
    · rename_i fuel2 heq l2 c rest
      obtain rfl : fuel2 = fuel := by omega
      rw [if_neg (by simp [h c (List.mem_cons_self _ _)])]
      rw [ih rest (fun x hx => h x (List.mem_cons_of_mem c hx))]

theorem plain_head_ne (l : List Char) (hpl : ∀ c ∈ l, isLowerAZ c = true)
    (q : Char) (hq : isLowerAZ q = false) : l.head? ≠ some q := by
  cases l with
  | nil => simp
  | cons a t =>
    simp only [List.head?_cons, Ne, Option.some.injEq]
    exact lowerAZ_ne (hpl a (List.mem_cons_self _ _)) hq

theorem leadIns_no_match (t : List Char) (hpl : ∀ c ∈ t, isLowerAZ c = true) :
    leadIns.find? (fun p => p.isPrefixOf t) = none := by
  rw [List.find?_eq_none]
  intro p hp hcon
  have hall : ∀ c ∈ p, isLowerAZ c = true := fun c hc =>
    hpl c ((List.isPrefixOf_iff_prefix.mp hcon).subset hc)
  fin_cases hp <;>
    first
      | exact absurd (hall ':' (by decide)) (by decide)
      | exact absurd (hall ',' (by decide)) (by decide)
      | exact absurd (hall '\'' (by decide)) (by decide)

theorem leadInStrip_id (l : List Char) (hpl : ∀ c ∈ l, isLowerAZ c = true) :
    leadInStrip l = l := by
  unfold leadInStrip
  simp only [pyLower_eq_self_of l hpl]
  rw [leadIns_no_match l hpl]

theorem leadInStripLine_id (l : List Char) (hpl : ∀ c ∈ l, isLowerAZ c = true) :
    leadInStripLine l = l := by
  unfold leadInStripLine
  simp only [pyLower_eq_self_of l hpl,
    pyStrip_eq_self_of l (fun c hc => lowerAZ_not_spc (hpl c hc))]
  rw [leadIns_no_match l hpl]

theorem metaSub_id (phrase l : List Char) (hpl : ∀ c ∈ l, isLowerAZ c = true)
    (c : Char) (hc : c ∈ phrase) (hbad : isLowerAZ c = false) :
    metaSub phrase l = l := by
  unfold metaSub
  have h1 : l.takeWhile (fun c => c ≠ '\n') = l :=
    takeWhile_eq_self_of _ l (fun x hx => by
      simp [lowerAZ_ne (hpl x hx) (show isLowerAZ '\n' = false by decide)])
  rw [h1]
  have h2 : findSubIdx phrase (pyLower l) = none := by
    unfold findSubIdx
    rw [List.find?_eq_none]
    intro i hi hcon
    rw [pyLower_eq_self_of l hpl] at hcon
    have hmem := (List.isPrefixOf_iff_prefix.mp hcon).subset hc
    have hlo := hpl c (List.mem_of_mem_drop hmem)
    rw [hlo] at hbad
    cases hbad
  dsimp only
  rw [h2]

theorem metaAll_id (l : List Char) (hpl : ∀ c ∈ l, isLowerAZ c = true) :
    metaAll l = l := by
  have hs : pyStrip l = l :=
    pyStrip_eq_self_of l (fun c hc => lowerAZ_not_spc (hpl c hc))
  unfold metaAll metaPhrases
  simp only [List.foldl_cons, List.foldl_nil]
  rw [metaSub_id _ l hpl ' ' (by decide) (by decide), hs,
      metaSub_id _ l hpl ' ' (by decide) (by decide), hs,
      metaSub_id _ l hpl ' ' (by decide) (by decide), hs,
      metaSub_id _ l hpl ' ' (by decide) (by decide), hs]

theorem quoteExtract_id (l : List Char) (hpl : ∀ c ∈ l, isLowerAZ c = true) :
    quoteExtract l = l := by
  unfold quoteExtract
  rw [isSubstr_false_of_bad [':', '"'] l hpl ':' (by decide) (by decide),
      isSubstr_false_of_bad [':', '\''] l hpl ':' (by decide) (by decide)]
  simp

theorem tweetTagStrip_id (l : List Char) (hpl : ∀ c ∈ l, isLowerAZ c = true) :
    tweetTagStrip l = l := by
  unfold tweetTagStrip
  rw [pyStrip_eq_self_of l (fun c hc => lowerAZ_not_spc (hpl c hc)),
      pyLower_eq_self_of l hpl,
      no_isPrefixOf_of_bad "tweet:".data l hpl ':' (by decide) (by decide)]
  simp

theorem qstripOuter_id (q : Char) (hq : isLowerAZ q = false) (l : List Char)
    (hpl : ∀ c ∈ l, isLowerAZ c = true) : qstripOuter q l = l := by
  unfold qstripOuter
  rw [pyStrip_eq_self_of l (fun c hc => lowerAZ_not_spc (hpl c hc))]
  rw [if_neg (fun hand => plain_head_ne l hpl q hq hand.1)]

theorem qstripRaw_id (q : Char) (hq : isLowerAZ q = false) (l : List Char)
    (hpl : ∀ c ∈ l, isLowerAZ c = true) : qstripRaw q l = l := by
  unfold qstripRaw
  rw [if_neg (fun hand => plain_head_ne l hpl q hq hand.1)]

theorem splitNl_single (l : List Char) (h : ∀ c ∈ l, c ≠ '\n') :
    splitNl l = [l] := by
  induction l with
  | nil => rfl
  | cons c rest ih =>
    simp only [splitNl]
    rw [if_neg (by simpa using h c (List.mem_cons_self _ _))]
    rw [ih (fun x hx => h x (List.mem_cons_of_mem c hx))]

theorem cleanLine_id (l : List Char) (hpl : ∀ c ∈ l, isLowerAZ c = true) :
    cleanLine l = l := by
  unfold cleanLine
  dsimp only
  rw [show subMarkWs0 '*' l = l from
        subMarkWs0Go_id '*' (by decide) l.length l hpl,
      show subMarkWs0 '_' l = l from
        subMarkWs0Go_id '_' (by decide) l.length l hpl,
      show normSpaces l = l from
        normSpacesGo_id l.length l (fun c hc => lowerAZ_not_spc (hpl c hc)),
      leadInStripLine_id l hpl, metaAll_id l hpl,
      pyStrip_eq_self_of l (fun c hc => lowerAZ_not_spc (hpl c hc))]

/-- Plain lowercase text (letters `a`-`z` only) is a fixed point of the
whole sanitizer. -/
theorem clean_plain (l : List Char) (hpl : ∀ c ∈ l, isLowerAZ c = true) :
    clean_tweet l = l := by
  have hstar : ∀ c ∈ l, c ≠ '*' :=
    fun c hc => lowerAZ_ne (hpl c hc) (by decide)
  have hund : ∀ c ∈ l, c ≠ '_' :=
    fun c hc => lowerAZ_ne (hpl c hc) (by decide)
  have hspc : ∀ c ∈ l, isSpc c = false := fun c hc => lowerAZ_not_spc (hpl c hc)
  unfold clean_tweet
  dsimp only
  rw [qstripOuter_id '"' (by decide) l hpl, qstripOuter_id '\'' (by decide) l hpl,
      qstripRaw_id '"' (by decide) l hpl, qstripRaw_id '\'' (by decide) l hpl,
      show subBold l = l from subBoldGo_id l.length l hstar,
      show subBoldU l = l from subBoldUGo_id l.length l hund,
      show subItal l = l from subItalGo_id l.length l hstar,
      show subItalU l = l from subItalUGo_id l.length l hund,
      show subMarkWs '*' l = l from subMarkWsGo_id '*' l.length l hspc,
      show subMarkWs '_' l = l from subMarkWsGo_id '_' l.length l hspc,
      leadInStrip_id l hpl, metaAll_id l hpl, quoteExtract_id l hpl,
      splitNl_single l (fun c hc => lowerAZ_ne (hpl c hc) (by decide)),
      List.map_singleton, cleanLine_id l hpl,
      show joinNl [l] = l from rfl,
      qstripOuter_id '"' (by decide) l hpl, qstripOuter_id '\'' (by decide) l hpl,
      quoteExtract_id l hpl, tweetTagStrip_id l hpl,
      pyStrip_eq_self_of l hspc]

/-! ## Claim C3: idempotence of the sanitizer -/

set_option maxRecDepth 80000 in
/-- C3 (counterexample): `sanitize` is not idempotent.  On
`T = "okay, okay, okay, X"` one application strips the whole-text prefix
`"okay,"` once and the per-line pass once, leaving `"okay, X"`; a second
application strips again, giving `"X"`. -/
theorem C3_counterexample :
    clean_tweet (clean_tweet "okay, okay, okay, X".data) ≠
      clean_tweet "okay, okay, okay, X".data := by
  decide

/-- C3 (amended): `sanitize` is idempotent on already-clean text: any text of
plain lowercase letters (no whitespace, quotes, markdown, commas or colons)
is a fixed point, so a second application changes nothing.  Full idempotence
fails because each application strips at most a bounded number of
meta-commentary prefixes. -/
theorem C3_sanitize_idempotent_plain (l : List Char)
    (hpl : ∀ c ∈ l, isLowerAZ c = true) :
    clean_tweet (clean_tweet l) = clean_tweet l := by
  rw [clean_plain l hpl]
  exact clean_plain l hpl

theorem C3_sanitize_idempotent_plain_witness :
    clean_tweet (clean_tweet "linux".data) = clean_tweet "linux".data :=
  C3_sanitize_idempotent_plain "linux".data (by decide)

/-! ## Claim C5: enclosing-quote stripping -/

/-- C5 (counterexample): an input wrapped in two layers of double quotes
comes out with no quotes at all, not one layer: the stripped-and-raw
variants of the quote test both fire in the same call. -/
theorem C5_counterexample :
    clean_tweet "\"\"hello\"\"".data = "hello".data ∧
    ¬ ((clean_tweet "\"\"hello\"\"".data).head? = some '"' ∧
       (clean_tweet "\"\"hello\"\"".data).getLast? = some '"') := by
  constructor
  · decide
  · decide

/-- C5 (amended): for a plain lowercase body `s`, the input `""s""` (two
layers of double quotes) loses both layers in a single `sanitize` call,
returning `s` itself: the `strip()`-based test removes the outer layer and
the raw `startswith`/`endswith` test then removes the inner one. -/
theorem C5_double_wrap_strips_both (s : List Char) (hne : s ≠ [])
    (hpl : ∀ c ∈ s, isLowerAZ c = true) :
    clean_tweet ('"' :: '"' :: (s ++ ['"', '"'])) = s := by
  have hspc : ∀ c ∈ s, isSpc c = false := fun c hc => lowerAZ_not_spc (hpl c hc)
  have hstar : ∀ c ∈ s, c ≠ '*' := fun c hc => lowerAZ_ne (hpl c hc) (by decide)
  have hund : ∀ c ∈ s, c ≠ '_' := fun c hc => lowerAZ_ne (hpl c hc) (by decide)
  have hl0spc : ∀ c ∈ ('"' :: '"' :: (s ++ ['"', '"'])), isSpc c = false := by
    intro c hc
    simp only [List.mem_cons, List.mem_append] at hc
    rcases hc with rfl | rfl | hc | hc
    · decide
    · decide
    · exact hspc c hc
    · rcases hc with rfl | hc
      · decide
      · rcases hc with rfl | hc
        · decide
        · cases hc
  have ht1spc : ∀ c ∈ ('"' :: (s ++ ['"'])), isSpc c = false := by
    intro c hc
    simp only [List.mem_cons, List.mem_append] at hc
    rcases hc with rfl | hc | hc
    · decide
    · exact hspc c hc
    · rcases hc with rfl | hc
      · decide
      · cases hc
  have h1 : qstripOuter '"' ('"' :: '"' :: (s ++ ['"', '"'])) = '"' :: (s ++ ['"']) := by
    have hlast : ('"' :: '"' :: (s ++ ['"', '"'])).getLast? = some '"' := by
      rw [show ('"' :: '"' :: (s ++ ['"', '"'])) = ('"' :: '"' :: (s ++ ['"'])) ++ ['"'] by simp]
      exact List.getLast?_concat _
    unfold qstripOuter
    rw [pyStrip_eq_self_of _ hl0spc, if_pos ⟨rfl, hlast⟩]
    show ('"' :: (s ++ ['"', '"'])).dropLast = _
    rw [show ('"' :: (s ++ ['"', '"'])) = ('"' :: (s ++ ['"'])) ++ ['"'] by simp]
    exact List.dropLast_concat
  have h2 : qstripOuter '\'' ('"' :: (s ++ ['"'])) = '"' :: (s ++ ['"']) := by
    unfold qstripOuter
    rw [pyStrip_eq_self_of _ ht1spc]
    rw [if_neg (fun hand => by cases hand.1)]
  have h3 : qstripRaw '"' ('"' :: (s ++ ['"'])) = s := by
    have hlast : ('"' :: (s ++ ['"'])).getLast? = some '"' := by
      rw [show ('"' :: (s ++ ['"'])) = ('"' :: s) ++ ['"'] by simp]
      exact List.getLast?_concat _
    unfold qstripRaw
    rw [if_pos ⟨rfl, hlast⟩]
    show (s ++ ['"']).dropLast = s
    exact List.dropLast_concat
  have h4 : qstripRaw '\'' s = s := qstripRaw_id '\'' (by decide) s hpl
  unfold clean_tweet
  dsimp only
  rw [h1, h2, h3, h4,
      show subBold s = s from subBoldGo_id s.length s hstar,
      show subBoldU s = s from subBoldUGo_id s.length s hund,
      show subItal s = s from subItalGo_id s.length s hstar,
      show subItalU s = s from subItalUGo_id s.length s hund,
      show subMarkWs '*' s = s from subMarkWsGo_id '*' s.length s hspc,
      show subMarkWs '_' s = s from subMarkWsGo_id '_' s.length s hspc,
      leadInStrip_id s hpl, metaAll_id s hpl, quoteExtract_id s hpl,
      splitNl_single s (fun c hc => lowerAZ_ne (hpl c hc) (by decide)),
      List.map_singleton, cleanLine_id s hpl,
      show joinNl [s] = s from rfl,
      qstripOuter_id '"' (by decide) s hpl, qstripOuter_id '\'' (by decide) s hpl,
      quoteExtract_id s hpl, tweetTagStrip_id s hpl,
      pyStrip_eq_self_of s hspc]

theorem C5_double_wrap_strips_both_witness :
    clean_tweet ('"' :: '"' :: ("hello".data ++ ['"', '"'])) = "hello".data :=
  C5_double_wrap_strips_both "hello".data (by decide) (by decide)

/-! ## Claim C6: `ensure_breaks` inserts a newline

`HasB l` says a sentence boundary — a `[.!?]` character, a nonempty
whitespace run, then an `[A-Z]` character — occurs somewhere in `l`;
`TwoB l` says two of them do, the second strictly after the first. -/

def HasB (l : List Char) : Prop :=
  ∃ u p w e v, l = u ++ p :: (w ++ e :: v) ∧ isPunc p = true ∧ w ≠ [] ∧
    (∀ x ∈ w, isSpc x = true) ∧ isCapital e = true

def TwoB (l : List Char) : Prop :=
  ∃ u p₁ w₁ e₁ m p₂ w₂ e₂ v,
    l = u ++ p₁ :: (w₁ ++ e₁ :: (m ++ p₂ :: (w₂ ++ e₂ :: v))) ∧
    isPunc p₁ = true ∧ w₁ ≠ [] ∧ (∀ x ∈ w₁, isSpc x = true) ∧ isCapital e₁ = true ∧
    isPunc p₂ = true ∧ w₂ ≠ [] ∧ (∀ x ∈ w₂, isSpc x = true) ∧ isCapital e₂ = true

/-- The inserted-break shape: a punctuation mark, two newlines, a capital. -/
def SI (l : List Char) : Prop :=
  ∃ u v p e, l = u ++ p :: '\n' :: '\n' :: e :: v ∧ isPunc p = true ∧ isCapital e = true

/-- A newline protected from stripping: a non-space character somewhere before
it and a non-space character somewhere after it. -/
def P3 (l : List Char) : Prop :=
  ∃ u m w a, l = u ++ a :: (m ++ '\n' :: w) ∧ isSpc a = false ∧
    ∃ b ∈ w, isSpc b = false

theorem TwoB_HasB {l : List Char} (h : TwoB l) : HasB l := by
  obtain ⟨u, p₁, w₁, e₁, m, p₂, w₂, e₂, v, heq, hp₁, hw₁, hs₁, he₁, -, -, -, -⟩ := h
  exact ⟨u, p₁, w₁, e₁, m ++ p₂ :: (w₂ ++ e₂ :: v), heq, hp₁, hw₁, hs₁, he₁⟩

theorem punc_not_spc {c : Char} (h : isPunc c = true) : isSpc c = false := by
  simp only [isPunc, Bool.or_eq_true, decide_eq_true_eq] at h
  rcases h with (rfl | rfl) | rfl <;> decide

theorem spc_not_punc {c : Char} (h : isSpc c = true) : isPunc c = false := by
  simp only [isSpc, Bool.or_eq_true, decide_eq_true_eq] at h
  rcases h with ((((rfl | rfl) | rfl) | rfl) | rfl) | rfl <;> decide

theorem cap_not_spc {c : Char} (h : isCapital c = true) : isSpc c = false := by
  simp only [isCapital, Bool.and_eq_true, decide_eq_true_eq] at h
  simp only [isSpc, Bool.or_eq_false_iff, decide_eq_false_iff_not]
  refine ⟨⟨⟨⟨⟨?_, ?_⟩, ?_⟩, ?_⟩, ?_⟩, ?_⟩ <;> rintro rfl <;>
    exact absurd h.1 (by decide)

theorem span_spaces (w : List Char) (e : Char) (v : List Char)
    (hw : ∀ x ∈ w, isSpc x = true) (he : isSpc e = false) :
    (w ++ e :: v).takeWhile isSpc = w ∧ (w ++ e :: v).dropWhile isSpc = e :: v := by
  induction w with
  | nil =>
    constructor
    · simp only [List.nil_append]
      rw [List.takeWhile_cons_of_neg (by simp [he])]
    · simp only [List.nil_append]
      rw [List.dropWhile_cons_of_neg (by simp [he])]
  | cons a t ih =>
    have ha : isSpc a = true := hw a (List.mem_cons_self _ _)
    have iht := ih (fun x hx => hw x (List.mem_cons_of_mem a hx))
    constructor
    · simp only [List.cons_append]
      rw [List.takeWhile_cons_of_pos ha, iht.1]
    · simp only [List.cons_append]
      rw [List.dropWhile_cons_of_pos ha, iht.2]

theorem HasB_length {l : List Char} (h : HasB l) : 3 ≤ l.length := by
  obtain ⟨u, p, w, e, v, heq, -, hw, -, -⟩ := h
  have : w.length ≠ 0 := fun h0 => hw (List.eq_nil_of_length_eq_zero h0)
  subst heq
  simp only [List.length_append, List.length_cons]
  omega

theorem HasB_head_cases {c : Char} {t : List Char} (h : HasB (c :: t)) :
    (isPunc c = true ∧ ∃ w e v, t = w ++ e :: v ∧ w ≠ [] ∧
      (∀ x ∈ w, isSpc x = true) ∧ isCapital e = true) ∨ HasB t := by
  obtain ⟨u, p, w, e, v, heq, hp, hw, hs, he⟩ := h
  cases u with
  | nil =>
    simp only [List.nil_append, List.cons.injEq] at heq
    obtain ⟨rfl, rfl⟩ := heq
    exact Or.inl ⟨hp, w, e, v, rfl, hw, hs, he⟩
  | cons a u' =>
    simp only [List.cons_append, List.cons.injEq] at heq
    obtain ⟨rfl, rfl⟩ := heq
    exact Or.inr ⟨u', p, w, e, v, rfl, hp, hw, hs, he⟩

theorem HasB_tail {a : Char} {t : List Char} (h : HasB (a :: t))
    (ha : isPunc a = false) : HasB t := by
  rcases HasB_head_cases h with ⟨hp, -⟩ | ht
  · rw [ha] at hp; cases hp
  · exact ht

theorem HasB_dropWhile {l : List Char} (h : HasB l) :
    HasB (l.dropWhile isSpc) := by
  induction l with
  | nil => exact absurd (HasB_length h) (by simp)
  | cons a t ih =>
    by_cases ha : isSpc a = true
    · rw [List.dropWhile_cons_of_pos ha]
      exact ih (HasB_tail h (spc_not_punc ha))
    · rw [List.dropWhile_cons_of_neg (by simpa using ha)]
      exact h

theorem SI_cons (x : Char) {t : List Char} (h : SI t) : SI (x :: t) := by
  obtain ⟨u, v, p, e, heq, hp, he⟩ := h
  exact ⟨x :: u, v, p, e, by rw [heq]; rfl, hp, he⟩

theorem SI_append (x : List Char) {t : List Char} (h : SI t) : SI (x ++ t) := by
  obtain ⟨u, v, p, e, heq, hp, he⟩ := h
  exact ⟨x ++ u, v, p, e, by rw [heq]; simp, hp, he⟩

/-- The first substitution of `add_line_breaks` puts a `[.!?]`–`"\n\n"`–`[A-Z]`
group into the text whenever a sentence boundary exists. -/
theorem addBreaks1Go_SI (fuel : Nat) :
    ∀ l : List Char, l.length ≤ fuel → HasB l → SI (addBreaks1Go fuel l) := by
  induction fuel with
  | zero =>
    intro l hf hb
    exact absurd (HasB_length hb) (by omega)
  | succ fuel ih =>
    intro l hf hb
    rcases l with _ | ⟨c, _ | ⟨d, rest⟩⟩
    · exact absurd (HasB_length hb) (by simp)
    · exact absurd (HasB_length hb) (by simp)
    simp only [List.length_cons] at hf
    simp only [addBreaks1Go]
    by_cases hcd : (isPunc c && isSpc d) = true
    · rw [if_pos hcd]
      rw [Bool.and_eq_true] at hcd
      cases hdw : rest.dropWhile isSpc with
      | nil =>
        exfalso
        rcases HasB_head_cases hb with ⟨-, w, e₀, v, htv, hw, hs, he⟩ | ht
        · have hsp := (span_spaces w e₀ v hs (cap_not_spc he)).2
          rw [← htv, List.dropWhile_cons_of_pos hcd.2, hdw] at hsp
          cases hsp
        · have h2 := HasB_dropWhile ht
          rw [List.dropWhile_cons_of_pos hcd.2, hdw] at h2
          exact absurd (HasB_length h2) (by simp)
      | cons e rest2 =>
        dsimp only
        by_cases hce : isCapital e = true
        · rw [if_pos hce]
          exact ⟨[], addBreaks1Go fuel rest2, c, e, rfl, hcd.1, hce⟩
        · rw [if_neg hce]
          have hrest : HasB (e :: rest2) := by
            rcases HasB_head_cases hb with ⟨-, w, e₀, v, htv, hw, hs, he⟩ | ht
            · exfalso
              have hsp := (span_spaces w e₀ v hs (cap_not_spc he)).2
              rw [← htv, List.dropWhile_cons_of_pos hcd.2, hdw] at hsp
              injection hsp with h1 h2
              rw [h1] at hce
              exact hce he
            · have h2 := HasB_dropWhile ht
              rwa [List.dropWhile_cons_of_pos hcd.2, hdw] at h2
          have hlen : (e :: rest2).length ≤ fuel := by
            have := (@List.dropWhile_suffix Char rest isSpc).length_le
            rw [hdw] at this
            simp only [List.length_cons] at this ⊢
            omega
          exact SI_cons c (SI_cons d (SI_append _ (ih _ hlen hrest)))
    · rw [if_neg hcd]
      have hrest : HasB (d :: rest) := by
        rcases HasB_head_cases hb with ⟨hpc, w, e₀, v, htv, hw, hs, he⟩ | ht
        · exfalso
          cases w with
          | nil => exact hw rfl
          | cons w₀ w' =>
            simp only [List.cons_append, List.cons.injEq] at htv
            apply hcd
            rw [Bool.and_eq_true]
            exact ⟨hpc, htv.1 ▸ hs w₀ (List.mem_cons_self _ _)⟩
        · exact ht
      exact SI_cons c (ih _ (by simp only [List.length_cons] at *; omega) hrest)

/-- `NLp l`: a newline with a non-space character somewhere after it. -/
def NLp (l : List Char) : Prop :=
  ∃ m w, l = m ++ '\n' :: w ∧ ∃ b ∈ w, isSpc b = false

theorem SI_P3 {l : List Char} (h : SI l) : P3 l := by
  obtain ⟨u, v, p, e, heq, hp, he⟩ := h
  exact ⟨u, [], '\n' :: e :: v, p, by simpa using heq, punc_not_spc hp,
    e, by simp, cap_not_spc he⟩

theorem P3_cons (x : Char) {t : List Char} (h : P3 t) : P3 (x :: t) := by
  obtain ⟨u, m, w, a, heq, ha, b, hb, hbs⟩ := h
  exact ⟨x :: u, m, w, a, by rw [heq]; rfl, ha, b, hb, hbs⟩

/-- Each step of the second substitution either copies the head character or
rewrites a full match, whose replacement starts with the punctuation mark and
carries its own `"\n\n"` and capital. -/
theorem addBreaks2Go_shape (fuel : Nat) (c : Char) (rest : List Char) :
    (∃ tok e r4, addBreaks2Go (fuel + 1) (c :: rest) =
        c :: ' ' :: (tok ++ '\n' :: '\n' :: e :: addBreaks2Go fuel r4) ∧
        isPunc c = true ∧ isCapital e = true) ∨
    addBreaks2Go (fuel + 1) (c :: rest) = c :: addBreaks2Go fuel rest := by
  simp only [addBreaks2Go]
  by_cases h1 : (isPunc c && !(rest.takeWhile isSpc).isEmpty) = true
  · rw [if_pos h1]
    cases hht : hashTok (rest.dropWhile isSpc) with
    | none => exact Or.inr rfl
    | some pr =>
      obtain ⟨tok, r2⟩ := pr
      dsimp only
      by_cases h2 : (!(r2.takeWhile isSpc).isEmpty) = true
      · rw [if_pos h2]
        cases hdw : r2.dropWhile isSpc with
        | nil => exact Or.inr rfl
        | cons e r4 =>
          dsimp only
          by_cases h3 : isCapital e = true
          · rw [if_pos h3]
            exact Or.inl ⟨tok, e, r4, rfl, ((Bool.and_eq_true _ _).mp h1).1, h3⟩
          · rw [if_neg h3]
            exact Or.inr rfl
      · rw [if_neg h2]
        exact Or.inr rfl
  · rw [if_neg h1]
    exact Or.inr rfl

theorem addBreaks2Go_nonspc (fuel : Nat) :
    ∀ l : List Char, (∃ x ∈ l, isSpc x = false) →
      ∃ x ∈ addBreaks2Go fuel l, isSpc x = false := by
  induction fuel with
  | zero => exact fun l h => h
  | succ fuel ih =>
    intro l h
    rcases l with _ | ⟨c, rest⟩
    · simpa using h
    rcases addBreaks2Go_shape fuel c rest with ⟨tok, e, r4, heq, hpc, hce⟩ | heq
    · rw [heq]
      exact ⟨c, List.mem_cons_self _ _, punc_not_spc hpc⟩
    · rw [heq]
      obtain ⟨x, hx, hxs⟩ := h
      rcases List.mem_cons.mp hx with rfl | hx
      · exact ⟨x, List.mem_cons_self _ _, hxs⟩
      · obtain ⟨y, hy, hys⟩ := ih rest ⟨x, hx, hxs⟩
        exact ⟨y, List.mem_cons_of_mem c hy, hys⟩

theorem addBreaks2Go_NLp (fuel : Nat) :
    ∀ l : List Char, NLp l → NLp (addBreaks2Go fuel l) := by
  induction fuel with
  | zero => exact fun l h => h
  | succ fuel ih =>
    intro l h
    rcases l with _ | ⟨c, rest⟩
    · obtain ⟨m, w, heq, -⟩ := h
      cases m <;> simp at heq
    rcases addBreaks2Go_shape fuel c rest with ⟨tok, e, r4, heq, hpc, hce⟩ | heq
    · rw [heq]
      exact ⟨c :: ' ' :: (tok ++ ['\n']), e :: addBreaks2Go fuel r4, by simp,
        e, List.mem_cons_self _ _, cap_not_spc hce⟩
    · rw [heq]
      obtain ⟨m, w, hleq, b, hb, hbs⟩ := h
      cases m with
      | nil =>
        simp only [List.nil_append, List.cons.injEq] at hleq
        obtain ⟨rfl, rfl⟩ := hleq
        obtain ⟨y, hy, hys⟩ := addBreaks2Go_nonspc fuel rest ⟨b, hb, hbs⟩
        exact ⟨[], addBreaks2Go fuel rest, rfl, y, hy, hys⟩
      | cons m₀ m' =>
        simp only [List.cons_append, List.cons.injEq] at hleq
        obtain ⟨rfl, hrest⟩ := hleq
        obtain ⟨m2, w2, heq2, y, hy, hys⟩ := ih rest ⟨m', w, hrest, b, hb, hbs⟩
        exact ⟨c :: m2, w2, by rw [heq2]; rfl, y, hy, hys⟩

theorem addBreaks2Go_P3 (fuel : Nat) :
    ∀ l : List Char, P3 l → P3 (addBreaks2Go fuel l) := by
  induction fuel with
  | zero => exact fun l h => h
  | succ fuel ih =>
    intro l h
    rcases l with _ | ⟨c, rest⟩
    · obtain ⟨u, m, w, a, heq, -⟩ := h
      cases u <;> simp at heq
    rcases addBreaks2Go_shape fuel c rest with ⟨tok, e, r4, heq, hpc, hce⟩ | heq
    · rw [heq]
      exact ⟨[], ' ' :: tok, '\n' :: e :: addBreaks2Go fuel r4, c, by simp,
        punc_not_spc hpc, e, by simp, cap_not_spc hce⟩
    · rw [heq]
      obtain ⟨u, m, w, a, hleq, ha, b, hb, hbs⟩ := h
      cases u with
      | nil =>
        simp only [List.nil_append, List.cons.injEq] at hleq
        obtain ⟨rfl, hrest⟩ := hleq
        obtain ⟨m2, w2, heq2, y, hy, hys⟩ :=
          addBreaks2Go_NLp fuel rest ⟨m, w, hrest, b, hb, hbs⟩
        exact ⟨[], m2, w2, c, by rw [heq2]; rfl, ha, y, hy, hys⟩
      | cons u₀ u' =>
        simp only [List.cons_append, List.cons.injEq] at hleq
        obtain ⟨rfl, hrest⟩ := hleq
        exact P3_cons c (ih rest ⟨u', m, w, a, hrest, ha, b, hb, hbs⟩)

theorem dropWhile_append_of_nonspc (p : Char → Bool) (α β : List Char)
    (h : ∃ b ∈ α, p b = false) :
    (α ++ β).dropWhile p = α.dropWhile p ++ β := by
  induction α with
  | nil => obtain ⟨b, hb, -⟩ := h; cases hb
  | cons a t ih =>
    by_cases hpa : p a = true
    · rw [List.cons_append, List.dropWhile_cons_of_pos hpa,
        List.dropWhile_cons_of_pos hpa]
      apply ih
      obtain ⟨b, hb, hbs⟩ := h
      rcases List.mem_cons.mp hb with rfl | hb
      · rw [hpa] at hbs; cases hbs
      · exact ⟨b, hb, hbs⟩
    · rw [List.cons_append, List.dropWhile_cons_of_neg (by simpa using hpa),
        List.dropWhile_cons_of_neg (by simpa using hpa)]
      rfl

theorem pyRStrip_append_of (x w : List Char) (hw : ∃ b ∈ w, isSpc b = false) :
    pyRStrip (x ++ w) = x ++ pyRStrip w := by
  unfold pyRStrip
  rw [List.reverse_append]
  rw [dropWhile_append_of_nonspc isSpc w.reverse x.reverse
      (by obtain ⟨b, hb, hbs⟩ := hw; exact ⟨b, List.mem_reverse.mpr hb, hbs⟩)]
  rw [List.reverse_append, List.reverse_reverse]

theorem mem_pyLStrip (u y : List Char) (a : Char) (ha : isSpc a = false)
    (x : Char) (hx : x ∈ a :: y) : x ∈ pyLStrip (u ++ a :: y) := by
  induction u with
  | nil =>
    unfold pyLStrip
    rw [List.nil_append, List.dropWhile_cons_of_neg (by simp [ha])]
    exact hx
  | cons c u' ih =>
    unfold pyLStrip at *
    by_cases hc : isSpc c = true
    · rw [List.cons_append, List.dropWhile_cons_of_pos hc]
      exact ih
    · rw [List.cons_append, List.dropWhile_cons_of_neg (by simpa using hc)]
      exact List.mem_cons_of_mem c (List.mem_append_right u' hx)

theorem P3_newline_strip {l : List Char} (h : P3 l) : '\n' ∈ pyStrip l := by
  obtain ⟨u, m, w, a, heq, ha, b, hb, hbs⟩ := h
  subst heq
  unfold pyStrip
  rw [show u ++ a :: (m ++ '\n' :: w) = (u ++ a :: (m ++ ['\n'])) ++ w by simp]
  rw [pyRStrip_append_of _ w ⟨b, hb, hbs⟩]
  rw [show (u ++ a :: (m ++ ['\n'])) ++ pyRStrip w =
      u ++ a :: (m ++ '\n' :: pyRStrip w) by simp]
  exact mem_pyLStrip u (m ++ '\n' :: pyRStrip w) a ha '\n' (by simp)

/-- C6: if a newline-free text has two sentence-ending punctuation marks each
followed by whitespace and a capital letter, `add_line_breaks` puts at least
one newline into it (the first substitution inserts a protected `"\n\n"`;
the second substitution and the final `strip()` cannot remove them all). -/
theorem C6_ensure_breaks (t : List Char) (hnl : '\n' ∉ t) (h2 : TwoB t) :
    '\n' ∈ add_line_breaks t := by
  have hb : HasB t := TwoB_HasB h2
  have hsi : SI (addBreaks1 t) := addBreaks1Go_SI t.length t le_rfl hb
  have hp3 : P3 (addBreaks2 (addBreaks1 t)) :=
    addBreaks2Go_P3 (addBreaks1 t).length (addBreaks1 t) (SI_P3 hsi)
  unfold add_line_breaks
  exact P3_newline_strip hp3

theorem C6_ensure_breaks_witness :
    '\n' ∈ add_line_breaks "ab. Cd. Ef".data :=
  C6_ensure_breaks "ab. Cd. Ef".data (by decide)
    ⟨"ab".data, '.', [' '], 'C', "d".data, '.', [' '], 'E', "f".data,
     by decide, by decide, by decide, by decide, by decide,
     by decide, by decide, by decide, by decide⟩
